import Mathlib

/-!
Verification of the `confer` type-inference engine (`src/infer.rs`).

This file gives a shallow embedding of the inference engine: the type
representation `Ty` (the source's `Type`, renamed because `Type` is a Lean
keyword), equality constraints, the substitution store, the scoped
environment, constraint generation (`infer`), the unifier (`unify`,
`solve_constraints`), the occurs check (`occurs_in`) and substitution
application (`substitute`).

Modelling conventions:
* Rust `Vec<Type>` and `Vec<Constraint>` become Lean lists; the environment
  stack `Vec<HashMap<String, Type>>` becomes a list of association lists
  whose head is the innermost (most recently pushed) scope, matching the
  source's `iter().rev()` lookup order.  `HashMap::insert` is modelled by
  an association-list insert that replaces an existing key.
* The source signals every failure by panicking (`unwrap`, `assert!`,
  `assert_eq!`, out-of-bounds `Vec` indexing).  A panic aborts the process,
  so panicking functions are embedded with an explicit `Panic` result; the
  `Panic` constructors record which failure site fired.
* `occurs_in`, `unify` and `substitute` recurse through the substitution
  store, which a Lean definition cannot do directly, so they take an
  explicit fuel argument; the result `Res.timeout` means the fuel ran out.
  A run of the Rust code terminates exactly when some fuel suffices, and a
  Rust infinite recursion (stack overflow) corresponds to every fuel giving
  `Res.timeout`.
-/

/-- The `Type` enum of `src/infer.rs` (renamed `Ty`): a type constructor
`Con { name, args }` applied to argument types, or a type variable `Var(usize)`. -/
inductive Ty where
  | con : String → List Ty → Ty
  | var : Nat → Ty
deriving Repr

mutual

/-- Structural decidable equality for `Ty` (the derived instance is not
available for this nested inductive); mirrors Rust's `PartialEq`. -/
def Ty.decEq : (a b : Ty) → Decidable (a = b)
  | .var x, .var y =>
    if h : x = y then .isTrue (by rw [h]) else .isFalse (by simp [h])
  | .con n1 as1, .con n2 as2 =>
    if h : n1 = n2 then
      match Ty.decEqList as1 as2 with
      | .isTrue h2 => .isTrue (by rw [h, h2])
      | .isFalse h2 => .isFalse (by simp [h2])
    else .isFalse (by simp [h])
  | .var _, .con _ _ => .isFalse (by simp)
  | .con _ _, .var _ => .isFalse (by simp)

/-- Decidable equality for lists of `Ty`, mutual part of `Ty.decEq`. -/
def Ty.decEqList : (as bs : List Ty) → Decidable (as = bs)
  | [], [] => .isTrue rfl
  | t :: ts, u :: us =>
    match Ty.decEq t u, Ty.decEqList ts us with
    | .isTrue h1, .isTrue h2 => .isTrue (by rw [h1, h2])
    | .isFalse h1, _ => .isFalse (by simp [h1])
    | _, .isFalse h2 => .isFalse (by simp [h2])
  | [], _ :: _ => .isFalse (by simp)
  | _ :: _, [] => .isFalse (by simp)

end

instance : DecidableEq Ty := Ty.decEq

/-- The `Constraint` enum of `src/infer.rs`: an equality relationship
between two types. -/
inductive Constraint where
  | eq : Ty → Ty → Constraint
deriving DecidableEq, Repr

/-- One scope of the environment: the source's `HashMap<String, Type>`,
modelled as an association list with unique keys. -/
abbrev Scope := List (String × Ty)

/-- Lookup in one scope: `HashMap::get`. -/
def scopeGet : Scope → String → Option Ty
  | [], _ => none
  | (k, v) :: rest, name => if k = name then some v else scopeGet rest name

/-- Insert into one scope, replacing an existing binding of the same name:
`HashMap::insert`. -/
def scopeInsert : Scope → String → Ty → Scope
  | [], name, ty => [(name, ty)]
  | (k, v) :: rest, name, ty =>
    if k = name then (name, ty) :: rest else (k, v) :: scopeInsert rest name ty

/-- The failure sites of the source, all of which panic (abort the process):
* `unboundVariable`: the `unwrap` on `get_var` in `infer` (infer.rs:89);
* `infiniteType`: the occurs-check `assert!` in `unify` (infer.rs:158);
* `typeMismatch`: the name / arity `assert_eq!` in `unify` (infer.rs:177-179);
* `emptyEnv`: the `unwrap` on `last_mut` in `extend` (infer.rs:254);
* `indexOutOfBounds`: a `Vec` index out of range in `subst`. -/
inductive Panic where
  | unboundVariable : String → Panic
  | infiniteType : Nat → Panic
  | typeMismatch : Panic
  | emptyEnv : Panic
  | indexOutOfBounds : Panic
deriving DecidableEq, Repr

/-- Result of running an embedded, fuelled computation: a normal value, a
panic (process abort), or fuel exhaustion (`timeout`), which stands for a
non-terminating run of the source. -/
inductive Res (α : Type) where
  | ok : α → Res α
  | panic : Panic → Res α
  | timeout : Res α
deriving DecidableEq, Repr

/-- The `Engine` struct of `src/infer.rs`: the substitution store, the
pending constraints, and the stack of scopes (head = innermost scope). -/
structure Engine where
  subst : List Ty
  constraints : List Constraint
  env : List Scope
deriving DecidableEq, Repr

/-- `Engine::new`: empty store and constraint list, the caller's base scope. -/
def Engine.new (env0 : Scope) : Engine :=
  { subst := [], constraints := [], env := [env0] }

/-- `Engine::new_tyvar`: append a self-mapped slot to the store and return
the fresh variable together with the updated engine. -/
def newTyvar (e : Engine) : Ty × Engine :=
  (Ty.var e.subst.length, { e with subst := e.subst ++ [Ty.var e.subst.length] })

/-- `Engine::get_var`: scan the scope stack innermost-first, first match wins. -/
def getVar (e : Engine) (name : String) : Option Ty :=
  lookupScopes e.env name
where
  lookupScopes : List Scope → String → Option Ty
    | [], _ => none
    | sc :: rest, name =>
      match scopeGet sc name with
      | some ty => some ty
      | none => lookupScopes rest name

/-- `Engine::extend`: insert into the innermost scope.  The source calls
`last_mut().unwrap()`, which panics when the scope stack is empty, hence
the `Option` result (`none` = that panic). -/
def extend (e : Engine) (name : String) (ty : Ty) : Option Engine :=
  match e.env with
  | [] => none
  | sc :: rest => some { e with env := scopeInsert sc name ty :: rest }

/-- `Engine::new_scope`: push an empty scope. -/
def newScope (e : Engine) : Engine :=
  { e with env := [] :: e.env }

/-- `Engine::exit_scope`: pop the innermost scope (`Vec::pop` is a no-op on
an empty stack). -/
def exitScope (e : Engine) : Engine :=
  { e with env := e.env.tail }

/-- The `Expr` enum of `src/expr.rs`: variables, applications, abstractions. -/
inductive Expr where
  | var : String → Expr
  | app : Expr → Expr → Expr
  | abs : String → Expr → Expr
deriving DecidableEq, Repr

/-- Result of `Engine::infer`.  The Rust signature is `fn infer(&mut self,
expr: &Expr) -> Type`; errors abort via panic, never via a return value.
`ok ty e` is a normal return with the mutated engine; `panic p e` records
which panic fired and the engine state at the moment of the panic (the
state a `catch_unwind` caller would observe - in particular, a panic
inside an abstraction body escapes before `exit_scope` runs). -/
inductive InferRes where
  | ok : Ty → Engine → InferRes
  | panic : Panic → Engine → InferRes
deriving DecidableEq, Repr

/-- `Engine::infer` (infer.rs:78-134): recursively walk the expression,
allocating fresh variables and emitting constraints.
* `Var(var)`: `self.get_var(var).unwrap()` - panics when the name is absent.
* `App(fun, arg)`: infer both, allocate `fun_out_ty`, push the constraint
  `fun_ty == Fun[arg_ty, fun_out_ty]`, return `fun_out_ty`.
* `Abs(arg, body)`: allocate `arg_ty`, push a scope, bind `arg`, infer the
  body, pop the scope, return `Fun[arg_ty, body_ty]`.  When inferring the
  body panics, the panic propagates and `exit_scope` is not executed. -/
def infer (e : Engine) : Expr → InferRes
  | .var v =>
    match getVar e v with
    | some ty => .ok ty e
    | none => .panic (.unboundVariable v) e
  | .app fn arg =>
    match infer e fn with
    | .panic p e1 => .panic p e1
    | .ok funTy e1 =>
      match infer e1 arg with
      | .panic p e2 => .panic p e2
      | .ok argTy e2 =>
        let outE := newTyvar e2
        .ok outE.1
          { outE.2 with
            constraints :=
              outE.2.constraints ++
                [Constraint.eq funTy (Ty.con "Fun" [argTy, outE.1])] }
  | .abs arg body =>
    let argE := newTyvar e
    match extend (newScope argE.2) arg argE.1 with
    | none => .panic .emptyEnv (newScope argE.2)
    | some e2 =>
      match infer e2 body with
      | .panic p e3 => .panic p e3
      | .ok bodyTy e3 => .ok (Ty.con "Fun" [argE.1, bodyTy]) (exitScope e3)

mutual

/-- `Engine::occurs_in` (infer.rs:189-205): does the variable `index` occur
in `ty`, chasing current store bindings?  For `Con` it scans the arguments;
for `Var(id)` it reads `subst[id]` (panic when out of bounds), answers
`true` when that binding is literally `Var(index)`, and otherwise recurses
into the binding.  Note that for an unbound `Var(id)` with `id ≠ index`
this recursion repeats the same arguments, so the source loops forever;
here every fuel yields `timeout`. -/
def occursIn (s : List Ty) : Nat → Nat → Ty → Res Bool
  | 0, _, _ => .timeout
  | fuel + 1, index, .con _ args => occursInList s fuel index args
  | fuel + 1, index, .var id =>
    match s[id]? with
    | none => .panic .indexOutOfBounds
    | some m => if m = .var index then .ok true else occursIn s fuel index m

/-- The `args.iter().any(..)` part of `occurs_in`: left-to-right,
short-circuiting on the first `true` (and on a panic or a loop). -/
def occursInList (s : List Ty) : Nat → Nat → List Ty → Res Bool
  | 0, _, _ => .timeout
  | _ + 1, _, [] => .ok false
  | fuel + 1, index, t :: ts =>
    match occursIn s fuel index t with
    | .ok true => .ok true
    | .ok false => occursInList s fuel index ts
    | .panic p => .panic p
    | .timeout => .timeout

end

mutual

/-- `Engine::unify` (infer.rs:149-186).  Match arms in source order:
two equal variables unify trivially; a variable against anything else is
`unifyVar` (the or-pattern `(Var(x), y) | (y, Var(x))` prefers the left
alternative); two constructors must agree on name (`assert_eq!`, modelled
as a `typeMismatch` panic) and arity, then their arguments are unified
pairwise left to right. -/
def unify : Nat → List Ty → Ty → Ty → Res (List Ty)
  | 0, _, _, _ => .timeout
  | fuel + 1, s, .var x, .var y =>
    if x = y then .ok s else unifyVar fuel s x (.var y)
  | fuel + 1, s, .var x, .con n args => unifyVar fuel s x (.con n args)
  | fuel + 1, s, .con n args, .var y => unifyVar fuel s y (.con n args)
  | fuel + 1, s, .con xn xargs, .con yn yargs =>
    if xn = yn then
      if xargs.length = yargs.length then unifyList fuel s xargs yargs
      else .panic .typeMismatch
    else .panic .typeMismatch

/-- The variable arm of `unify`: read `subst[x]` (panic when out of bounds);
when the slot is self-mapped, run the occurs check - `assert!` failure is
the `infiniteType` panic - and overwrite the slot with `y`; when the slot
is already bound, unify the binding with `y`. -/
def unifyVar : Nat → List Ty → Nat → Ty → Res (List Ty)
  | 0, _, _, _ => .timeout
  | fuel + 1, s, x, y =>
    match s[x]? with
    | none => .panic .indexOutOfBounds
    | some m =>
      if m = .var x then
        match occursIn s fuel x y with
        | .ok true => .panic (.infiniteType x)
        | .ok false => .ok (s.set x y)
        | .panic p => .panic p
        | .timeout => .timeout
      else unify fuel s m y

/-- The `for (t1, t2) in x_args.iter().zip(y_args)` loop of `unify`:
pairwise left to right, threading the store, stopping at the first
failure. -/
def unifyList : Nat → List Ty → List Ty → List Ty → Res (List Ty)
  | 0, _, _, _ => .timeout
  | _ + 1, s, [], _ => .ok s
  | _ + 1, s, _ :: _, [] => .ok s
  | fuel + 1, s, t1 :: ts1, t2 :: ts2 =>
    match unify fuel s t1 t2 with
    | .ok s' => unifyList fuel s' ts1 ts2
    | .panic p => .panic p
    | .timeout => .timeout

end

/-- The loop of `Engine::solve_constraints`: unify each constraint in
insertion order, threading the store. -/
def solveConstraintsList (fuel : Nat) : List Ty → List Constraint → Res (List Ty)
  | s, [] => .ok s
  | s, .eq t1 t2 :: rest =>
    match unify fuel s t1 t2 with
    | .ok s' => solveConstraintsList fuel s' rest
    | .panic p => .panic p
    | .timeout => .timeout

/-- `Engine::solve_constraints` (infer.rs:137-146): solve every pending
constraint in insertion order, then clear the constraint list. -/
def solveConstraints (fuel : Nat) (e : Engine) : Res Engine :=
  match solveConstraintsList fuel e.subst e.constraints with
  | .ok s' => .ok { e with subst := s', constraints := [] }
  | .panic p => .panic p
  | .timeout => .timeout

mutual

/-- `Engine::substitute` (infer.rs:208-220): follow a variable's binding
chain until an unbound variable or a constructor is reached, then
substitute into every constructor argument. -/
def substitute (s : List Ty) : Nat → Ty → Res Ty
  | 0, _ => .timeout
  | fuel + 1, .var x =>
    match s[x]? with
    | none => .panic .indexOutOfBounds
    | some m => if m = .var x then .ok (.var x) else substitute s fuel m
  | fuel + 1, .con name args =>
    match substituteList s fuel args with
    | .ok args' => .ok (.con name args')
    | .panic p => .panic p
    | .timeout => .timeout

/-- The `args.into_iter().map(..)` part of `substitute`. -/
def substituteList (s : List Ty) : Nat → List Ty → Res (List Ty)
  | 0, _ => .timeout
  | _ + 1, [] => .ok []
  | fuel + 1, t :: ts =>
    match substitute s fuel t with
    | .ok u =>
      match substituteList s fuel ts with
      | .ok us => .ok (u :: us)
      | .panic p => .panic p
      | .timeout => .timeout
    | .panic p => .panic p
    | .timeout => .timeout

end

mutual

/-- The list of variable ids occurring syntactically in a type. -/
def tyVars : Ty → List Nat
  | .var x => [x]
  | .con _ args => tyVarsList args

/-- Variable ids occurring in a list of types. -/
def tyVarsList : List Ty → List Nat
  | [] => []
  | t :: ts => tyVars t ++ tyVarsList ts

end

mutual

/-- Fuel sufficient for `substitute` to traverse a type none of whose
variables is bound: one unit per layer. -/
def tyFuel : Ty → Nat
  | .var _ => 1
  | .con _ args => 1 + tyFuelList args

/-- Fuel sufficient for `substituteList` on a list of fully resolved types. -/
def tyFuelList : List Ty → Nat
  | [] => 1
  | t :: ts => 1 + max (tyFuel t) (tyFuelList ts)

end

/-- Every variable id of `t` is strictly below `n` (the store size). -/
def tyBelow (n : Nat) (t : Ty) : Bool :=
  (tyVars t).all (· < n)

/-- Both sides of a constraint only mention variables below `n`. -/
def constraintBelow (n : Nat) : Constraint → Bool
  | .eq t1 t2 => tyBelow n t1 && tyBelow n t2

/-- Every type bound in a scope only mentions variables below `n`. -/
def scopeBelow (n : Nat) (sc : Scope) : Bool :=
  sc.all fun p => tyBelow n p.2

/-- The allocation invariant of the engine: every `Var(id)` appearing in the
substitution store, the constraint list or the environment has `id`
strictly below the store's current size. -/
def engineWF (e : Engine) : Bool :=
  e.subst.all (tyBelow e.subst.length) &&
    (e.constraints.all (constraintBelow e.subst.length) &&
      e.env.all (scopeBelow e.subst.length))

/-- Helper: `occurs_in(k, Var(id))` with `id` unbound and `id ≠ k` repeats
its own arguments (infer.rs:201), so it exhausts any fuel. -/
theorem occursIn_unbound_other_timeout (s : List Ty) (id k : Nat)
    (hid : s[id]? = some (Ty.var id)) (hne : Ty.var id ≠ Ty.var k) :
    ∀ fuel, occursIn s fuel k (Ty.var id) = Res.timeout := by
  intro fuel
  induction fuel with
  | zero => rfl
  | succ n ih => rw [occursIn]; simp [hid, hne, ih]

/-- C1: with base environment `{"one": Int}` and expression
`App(Abs("x", Var "x"), Var "one")`, `infer` returns the fresh variable
`Var 1` and emits the single constraint
`Fun[Var 0, Var 0] == Fun[Int, Var 1]` (the abstraction's own `Fun` type
equated with the application's expected `Fun` shape); `solve_constraints`
then binds both store slots to `Int`, and `substitute` on the returned
type yields exactly `Con {"Int", []}`. -/
theorem c1_end_to_end_identity_application :
    infer (Engine.new [("one", Ty.con "Int" [])])
        (Expr.app (Expr.abs "x" (Expr.var "x")) (Expr.var "one")) =
      InferRes.ok (Ty.var 1)
        { subst := [Ty.var 0, Ty.var 1],
          constraints :=
            [Constraint.eq (Ty.con "Fun" [Ty.var 0, Ty.var 0])
              (Ty.con "Fun" [Ty.con "Int" [], Ty.var 1])],
          env := [[("one", Ty.con "Int" [])]] } ∧
    solveConstraints 50
        { subst := [Ty.var 0, Ty.var 1],
          constraints :=
            [Constraint.eq (Ty.con "Fun" [Ty.var 0, Ty.var 0])
              (Ty.con "Fun" [Ty.con "Int" [], Ty.var 1])],
          env := [[("one", Ty.con "Int" [])]] } =
      Res.ok
        { subst := [Ty.con "Int" [], Ty.con "Int" []],
          constraints := [],
          env := [[("one", Ty.con "Int" [])]] } ∧
    substitute [Ty.con "Int" [], Ty.con "Int" []] 50 (Ty.var 1) =
      Res.ok (Ty.con "Int" []) :=
  ⟨by decide, by decide, by decide⟩

/-- C2: unifying `Var(k)` against `Con {"List", [Var(k)]}` with slot `k`
still self-mapped runs the occurs check, which finds `k` (the argument
chases to `Var(k)` whose binding is `Var(k)` itself, infer.rs:197) and the
`assert!` fires: an `InfiniteType(k)` abort.  The result holds for every
fuel of at least 5, so the run terminates - it neither loops nor
overflows the stack. -/
theorem c2_occurs_check_infinite_type (k fuel : Nat) (s : List Ty)
    (hk : s[k]? = some (Ty.var k)) (hf : 5 ≤ fuel) :
    unify fuel s (Ty.var k) (Ty.con "List" [Ty.var k]) =
      Res.panic (Panic.infiniteType k) := by
  obtain ⟨f, rfl⟩ : ∃ f, fuel = f + 5 := ⟨fuel - 5, by omega⟩
  rw [unify, unifyVar]
  simp [hk, occursIn, occursInList]

/-- Witness for C2 at `k = 0`, store `[Var 0]`, fuel `5`. -/
theorem c2_occurs_check_infinite_type_witness :
    ([Ty.var 0][0]? = some (Ty.var 0)) ∧ 5 ≤ 5 ∧
      unify 5 [Ty.var 0] (Ty.var 0) (Ty.con "List" [Ty.var 0]) =
        Res.panic (Panic.infiniteType 0) :=
  ⟨rfl, by omega, c2_occurs_check_infinite_type 0 5 [Ty.var 0] rfl (by omega)⟩

/-- C3 fails on the code: `occurs_in` does NOT terminate on every store
satisfying the acyclicity invariant.  With the fully unbound store
`[Var 0, Var 1]` (trivially acyclic), `occurs_in(0, Var 1)` reads slot 1,
finds the self-binding `Var 1`, which differs from `Var 0`, and recurses
on exactly the same arguments (infer.rs:201): an infinite recursion, i.e.
`timeout` at every fuel.  Consequently unification of constraint sets
generated by `infer` also diverges: inferring `λx. λy. x y` succeeds and
yields the constraint `Var 0 == Fun[Var 1, Var 2]` over the acyclic store
`[Var 0, Var 1, Var 2]`, and solving it runs the occurs check of `0` in
`Fun[Var 1, Var 2]`, which hits the same loop, so `solve_constraints`
exhausts every fuel (the real program overflows its stack). -/
theorem c3_occurs_check_diverges :
    (∀ fuel, occursIn [Ty.var 0, Ty.var 1] fuel 0 (Ty.var 1) = Res.timeout) ∧
    (∀ fuel, unify fuel [Ty.var 0, Ty.var 1, Ty.var 2] (Ty.var 0)
        (Ty.con "Fun" [Ty.var 1, Ty.var 2]) = Res.timeout) ∧
    infer (Engine.new []) (Expr.abs "x" (Expr.abs "y"
        (Expr.app (Expr.var "x") (Expr.var "y")))) =
      InferRes.ok (Ty.con "Fun" [Ty.var 0, Ty.con "Fun" [Ty.var 1, Ty.var 2]])
        { subst := [Ty.var 0, Ty.var 1, Ty.var 2],
          constraints :=
            [Constraint.eq (Ty.var 0) (Ty.con "Fun" [Ty.var 1, Ty.var 2])],
          env := [[]] } ∧
    (∀ fuel, solveConstraints fuel
        { subst := [Ty.var 0, Ty.var 1, Ty.var 2],
          constraints :=
            [Constraint.eq (Ty.var 0) (Ty.con "Fun" [Ty.var 1, Ty.var 2])],
          env := [[]] } = Res.timeout) := by
  have hone : ∀ fuel, occursIn [Ty.var 0, Ty.var 1, Ty.var 2] fuel 0 (Ty.var 1) =
      Res.timeout :=
    occursIn_unbound_other_timeout _ 1 0 rfl (by decide)
  have huni : ∀ fuel, unify fuel [Ty.var 0, Ty.var 1, Ty.var 2] (Ty.var 0)
      (Ty.con "Fun" [Ty.var 1, Ty.var 2]) = Res.timeout := by
    intro fuel
    match fuel with
    | 0 => rfl
    | 1 => rfl
    | 2 => rfl
    | 3 => rfl
    | n + 4 =>
      rw [unify, unifyVar]
      simp [occursIn, occursInList, hone n]
  refine ⟨occursIn_unbound_other_timeout _ 1 0 rfl (by decide), huni, by decide, ?_⟩
  intro fuel
  rw [solveConstraints]
  simp [solveConstraintsList, huni fuel]

/-- Counterexample to C4 as stated: the claim says an unbound-variable
failure is returned to the caller as an ordinary failure value (an
`Err`-carrying result type) and never as an unrecoverable abort.  The
source's `infer` has result type `Type` and runs
`self.get_var(var).unwrap()` (infer.rs:89): on the concrete input
`Var "undeclared")` with an empty base environment, it panics - an abort,
not a returned value. -/
theorem c4_counterexample_unbound_variable_panics :
    infer (Engine.new []) (Expr.var "undeclared") =
      InferRes.panic (Panic.unboundVariable "undeclared") (Engine.new []) := by
  decide

/-- C4 (amended): all three failures are delivered as panics - aborts of
the process - never as ordinary failure values: `infer` unwraps `None` on
an unbound name, and the unifier asserts on a constructor mismatch and on
an occurs-check hit.  Each conjunct runs one failure to its panic. -/
theorem c4_failures_are_aborts :
    infer (Engine.new []) (Expr.var "undeclared") =
      InferRes.panic (Panic.unboundVariable "undeclared") (Engine.new []) ∧
    solveConstraints 50
        { subst := [], env := [[]],
          constraints := [Constraint.eq (Ty.con "Int" []) (Ty.con "Bool" [])] } =
      Res.panic Panic.typeMismatch ∧
    solveConstraints 50
        { subst := [Ty.var 0], env := [[]],
          constraints := [Constraint.eq (Ty.var 0) (Ty.con "List" [Ty.var 0])] } =
      Res.panic (Panic.infiniteType 0) :=
  ⟨by decide, by decide, by decide⟩

/-- C5: unifying two constructor terms fails with the `typeMismatch` abort
when the names differ, fails the same way when the arities differ, and
otherwise unifies the argument pairs positionally left to right, stopping
at the first failure; in particular `Fun[a,b]` against `Pair[a,b]` and
`Fun[a]` against `Fun[a,b]` both fail with `typeMismatch`.  (The fuel
offsets only count the embedding's recursion depth.) -/
theorem c5_constructor_unification (s : List Ty) (fuel : Nat) :
    (∀ n1 a1 n2 a2, n1 ≠ n2 →
      unify (fuel + 1) s (Ty.con n1 a1) (Ty.con n2 a2) =
        Res.panic Panic.typeMismatch) ∧
    (∀ n a1 a2, a1.length ≠ a2.length →
      unify (fuel + 1) s (Ty.con n a1) (Ty.con n a2) =
        Res.panic Panic.typeMismatch) ∧
    (∀ n t1 ts1 t2 ts2 p, ts1.length = ts2.length →
      unify fuel s t1 t2 = Res.panic p →
      unify (fuel + 1 + 1) s (Ty.con n (t1 :: ts1)) (Ty.con n (t2 :: ts2)) =
        Res.panic p) ∧
    (∀ n t1 ts1 t2 ts2 s', ts1.length = ts2.length →
      unify fuel s t1 t2 = Res.ok s' →
      unify (fuel + 1 + 1) s (Ty.con n (t1 :: ts1)) (Ty.con n (t2 :: ts2)) =
        unifyList fuel s' ts1 ts2) ∧
    (∀ a b, unify (fuel + 1) s (Ty.con "Fun" [a, b]) (Ty.con "Pair" [a, b]) =
      Res.panic Panic.typeMismatch) ∧
    (∀ a b, unify (fuel + 1) s (Ty.con "Fun" [a]) (Ty.con "Fun" [a, b]) =
      Res.panic Panic.typeMismatch) := by
  refine ⟨?_, ?_, ?_, ?_, ?_, ?_⟩
  · intro n1 a1 n2 a2 h; rw [unify]; simp [h]
  · intro n a1 a2 h; rw [unify]; simp [h]
  · intro n t1 ts1 t2 ts2 p hlen h
    rw [unify]; simp [hlen]
    rw [unifyList, h]
  · intro n t1 ts1 t2 ts2 s' hlen h
    rw [unify]; simp [hlen]
    rw [unifyList, h]
  · intro a b; rw [unify]; simp
  · intro a b; rw [unify]; simp

/-- Witness for C5: a name conflict (conjunct 1) and a first-pair failure
short-circuiting a pairwise unification (conjunct 3), at concrete inputs. -/
theorem c5_constructor_unification_witness :
    ("Fun" : String) ≠ "Pair" ∧
    unify 2 [] (Ty.con "Fun" [Ty.var 3]) (Ty.con "Pair" [Ty.var 3]) =
      Res.panic Panic.typeMismatch ∧
    ([] : List Ty).length = ([] : List Ty).length ∧
    unify 1 [] (Ty.con "A" []) (Ty.con "B" []) = Res.panic Panic.typeMismatch ∧
    unify 3 [] (Ty.con "C" [Ty.con "A" []]) (Ty.con "C" [Ty.con "B" []]) =
      Res.panic Panic.typeMismatch :=
  ⟨by decide,
   (c5_constructor_unification [] 1).1 "Fun" [Ty.var 3] "Pair" [Ty.var 3] (by decide),
   rfl,
   by decide,
   (c5_constructor_unification [] 1).2.2.1 "C" (Ty.con "A" []) [] (Ty.con "B" []) []
     Panic.typeMismatch rfl (by decide)⟩

/-- C6: inferring `Abs("x", Abs("x", Var "x"))` resolves the inner `x` to
the inner parameter's fresh variable `Var 1` (the result is
`Fun[Var 0, Fun[Var 1, Var 1]]`, whose body is built from `Var 1`, never
from the outer `Var 0`), and both pushed scopes are popped again.  The
second conjunct exercises scope exit: in
`Abs("x", App(Abs("x", Var "x"), Var "x"))` the argument occurrence of `x`
is looked up after the inner abstraction's scope is popped and resolves to
the outer `Var 0` again, visible as `Fun[Var 0, Var 2]` on the right of
the emitted constraint. -/
theorem c6_shadowing (env0 : Scope) :
    infer (Engine.new env0) (Expr.abs "x" (Expr.abs "x" (Expr.var "x"))) =
      InferRes.ok (Ty.con "Fun" [Ty.var 0, Ty.con "Fun" [Ty.var 1, Ty.var 1]])
        { subst := [Ty.var 0, Ty.var 1], constraints := [], env := [env0] } ∧
    infer (Engine.new env0)
        (Expr.abs "x" (Expr.app (Expr.abs "x" (Expr.var "x")) (Expr.var "x"))) =
      InferRes.ok (Ty.con "Fun" [Ty.var 0, Ty.var 2])
        { subst := [Ty.var 0, Ty.var 1, Ty.var 2],
          constraints :=
            [Constraint.eq (Ty.con "Fun" [Ty.var 1, Ty.var 1])
              (Ty.con "Fun" [Ty.var 0, Ty.var 2])],
          env := [env0] } :=
  ⟨rfl, rfl⟩

/-- C10: the engine is pure and deterministic - equal initial environments
and equal expressions give equal inference results, hence equal returned
types, constraint lists and substitution stores (in particular identical
fresh-variable numbering), and equal solving outcomes. -/
theorem c10_deterministic (env1 env2 : Scope) (x1 x2 : Expr) (fuel : Nat)
    (henv : env1 = env2) (hx : x1 = x2) :
    infer (Engine.new env1) x1 = infer (Engine.new env2) x2 ∧
    (∀ t1 e1 t2 e2, infer (Engine.new env1) x1 = InferRes.ok t1 e1 →
      infer (Engine.new env2) x2 = InferRes.ok t2 e2 →
      t1 = t2 ∧ e1.subst = e2.subst ∧ e1.constraints = e2.constraints ∧
        solveConstraints fuel e1 = solveConstraints fuel e2) := by
  subst henv; subst hx
  refine ⟨rfl, ?_⟩
  intro t1 e1 t2 e2 h1 h2
  rw [h1] at h2
  injection h2 with ht he
  subst ht; subst he
  exact ⟨rfl, rfl, rfl, rfl⟩

/-- Witness for C10 at a concrete environment and expression. -/
theorem c10_deterministic_witness :
    ([("one", Ty.con "Int" [])] : Scope) = [("one", Ty.con "Int" [])] ∧
    Expr.var "one" = Expr.var "one" ∧
    infer (Engine.new [("one", Ty.con "Int" [])]) (Expr.var "one") =
      infer (Engine.new [("one", Ty.con "Int" [])]) (Expr.var "one") :=
  ⟨rfl, rfl,
   (c10_deterministic [("one", Ty.con "Int" [])] [("one", Ty.con "Int" [])]
     (Expr.var "one") (Expr.var "one") 1 rfl rfl).1⟩


/-- Unfolding of `infer` on a variable expression. -/
theorem infer_var (e : Engine) (v : String) :
    infer e (Expr.var v) =
      match getVar e v with
      | some ty => InferRes.ok ty e
      | none => InferRes.panic (Panic.unboundVariable v) e := rfl

/-- Unfolding of `infer` on an application, with `new_tyvar` and the
constraint push spelled out. -/
theorem infer_app (e : Engine) (fn arg : Expr) :
    infer e (Expr.app fn arg) =
      match infer e fn with
      | .panic p e1 => .panic p e1
      | .ok funTy e1 =>
        match infer e1 arg with
        | .panic p e2 => .panic p e2
        | .ok argTy e2 =>
          .ok (Ty.var e2.subst.length)
            (Engine.mk (e2.subst ++ [Ty.var e2.subst.length])
              (e2.constraints ++
                [Constraint.eq funTy
                  (Ty.con "Fun" [argTy, Ty.var e2.subst.length])])
              e2.env) := rfl

/-- Unfolding of `infer` on an abstraction, with `new_tyvar`, `new_scope`
and `extend` spelled out: the body is inferred in the engine whose
innermost scope is the singleton `param ↦ Var(n)`. -/
theorem infer_abs (e : Engine) (a : String) (body : Expr) :
    infer e (Expr.abs a body) =
      match infer (Engine.mk (e.subst ++ [Ty.var e.subst.length]) e.constraints
          (scopeInsert [] a (Ty.var e.subst.length) :: e.env)) body with
      | .panic p e3 => .panic p e3
      | .ok bodyTy e3 =>
          .ok (Ty.con "Fun" [Ty.var e.subst.length, bodyTy]) (exitScope e3) := rfl

/-- On every normal return, `infer` leaves the environment stack exactly as
it was before the call: each pushed scope is popped on the success path. -/
theorem infer_env_eq (x : Expr) : ∀ (e : Engine) (t : Ty) (e' : Engine),
    infer e x = InferRes.ok t e' → e'.env = e.env := by
  induction x with
  | var v =>
    intro e t e' h
    rw [infer_var] at h
    cases hg : getVar e v with
    | none => simp only [hg] at h; cases h
    | some ty => simp only [hg] at h; cases h; rfl
  | app fn arg ihf iha =>
    intro e t e' h
    rw [infer_app] at h
    cases hf : infer e fn with
    | panic p e1 => simp only [hf] at h; cases h
    | ok funTy e1 =>
      simp only [hf] at h
      cases ha : infer e1 arg with
      | panic p e2 => simp only [ha] at h; cases h
      | ok argTy e2 =>
        simp only [ha] at h
        cases h
        show e2.env = e.env
        rw [iha e1 argTy e2 ha, ihf e funTy e1 hf]
  | abs a body ih =>
    intro e t e' h
    rw [infer_abs] at h
    cases hb : infer (Engine.mk (e.subst ++ [Ty.var e.subst.length]) e.constraints
        (scopeInsert [] a (Ty.var e.subst.length) :: e.env)) body with
    | panic p e3 => simp only [hb] at h; cases h
    | ok bodyTy e3 =>
      simp only [hb] at h
      cases h
      have h3 := ih _ bodyTy e3 hb
      show e3.env.tail = e.env
      rw [h3]
      rfl

/-- Counterexample to C8 as stated: the claim says the scope pushed for an
abstraction body is popped on every path, including when inference of the
body fails, leaving the environment stack as it was before the call.  In
the source the pop is manual bookkeeping on the success path only
(infer.rs:126): the panic from the body unwinds before `exit_scope` runs.
Concretely, inferring `Abs("x", Var "y")` from the one-scope engine
`Engine.new []` panics with the pushed scope `{"x" ↦ Var 0}` still on the
stack - two scopes instead of the original one. -/
theorem c8_counterexample_panic_keeps_scope :
    infer (Engine.new []) (Expr.abs "x" (Expr.var "y")) =
      InferRes.panic (Panic.unboundVariable "y")
        (Engine.mk [Ty.var 0] [] [[("x", Ty.var 0)], []]) := by
  decide

/-- C8 (amended): on every path on which `infer` returns - and it only
returns normally, errors being panics, not returns - the environment
stack is exactly the one before the call; when inference of the body
fails, the panic propagates past `exit_scope`, so the abandoned engine
state still holds the pushed scope (see the counterexample). -/
theorem c8_scope_popped_on_return (e : Engine) (param : String) (body : Expr)
    (t : Ty) (e' : Engine)
    (h : infer e (Expr.abs param body) = InferRes.ok t e') :
    e'.env = e.env :=
  infer_env_eq (Expr.abs param body) e t e' h

/-- Witness for C8 at a concrete abstraction that infers successfully. -/
theorem c8_scope_popped_on_return_witness :
    infer (Engine.new []) (Expr.abs "x" (Expr.var "x")) =
      InferRes.ok (Ty.con "Fun" [Ty.var 0, Ty.var 0])
        (Engine.mk [Ty.var 0] [] [[]]) ∧
    (Engine.mk [Ty.var 0] [] [[]]).env = (Engine.new []).env :=
  ⟨by decide,
   c8_scope_popped_on_return (Engine.new []) "x" (Expr.var "x")
     (Ty.con "Fun" [Ty.var 0, Ty.var 0]) (Engine.mk [Ty.var 0] [] [[]])
     (by decide)⟩

/-- `tyFuel` is positive. -/
theorem tyFuel_pos (u : Ty) : 1 ≤ tyFuel u := by
  cases u with
  | var x => simp [tyFuel]
  | con n args => rw [tyFuel]; exact Nat.le_add_right 1 _

/-- `tyFuelList` is positive. -/
theorem tyFuelList_pos (us : List Ty) : 1 ≤ tyFuelList us := by
  cases us with
  | nil => simp [tyFuelList]
  | cons t ts => rw [tyFuelList]; exact Nat.le_add_right 1 _

/-- Helper for C7: every variable of a value returned by `substitute` is
unbound - its store slot is still self-mapped - because `substitute` only
stops chasing at self-mapped variables. -/
theorem substitute_ok_unbound (s : List Ty) :
    ∀ fuel, (∀ t u, substitute s fuel t = Res.ok u →
        ∀ x ∈ tyVars u, s[x]? = some (Ty.var x)) ∧
      (∀ ts us, substituteList s fuel ts = Res.ok us →
        ∀ x ∈ tyVarsList us, s[x]? = some (Ty.var x)) := by
  intro fuel
  induction fuel with
  | zero =>
    constructor
    · intro t u h; rw [substitute] at h; cases h
    · intro ts us h; rw [substituteList] at h; cases h
  | succ n ih =>
    obtain ⟨ih1, ih2⟩ := ih
    constructor
    · intro t u h x hx
      cases t with
      | var v =>
        rw [substitute] at h
        cases hg : s[v]? with
        | none => simp only [hg] at h; cases h
        | some m =>
          simp only [hg] at h
          by_cases hm : m = Ty.var v
          · rw [if_pos hm] at h
            cases h
            rw [tyVars] at hx
            simp only [List.mem_singleton] at hx
            subst hx
            rw [hg, hm]
          · rw [if_neg hm] at h
            exact ih1 m u h x hx
      | con name args =>
        rw [substitute] at h
        cases hl : substituteList s n args with
        | ok args' =>
          simp only [hl] at h
          cases h
          rw [tyVars] at hx
          exact ih2 args args' hl x hx
        | panic p => simp only [hl] at h; cases h
        | timeout => simp only [hl] at h; cases h
    · intro ts us h x hx
      cases ts with
      | nil =>
        rw [substituteList] at h
        cases h
        rw [tyVarsList] at hx
        cases hx
      | cons t ts' =>
        rw [substituteList] at h
        cases h1 : substitute s n t with
        | ok u1 =>
          simp only [h1] at h
          cases h2 : substituteList s n ts' with
          | ok us' =>
            simp only [h2] at h
            cases h
            rw [tyVarsList] at hx
            rcases List.mem_append.mp hx with hx1 | hx2
            · exact ih1 t u1 h1 x hx1
            · exact ih2 ts' us' h2 x hx2
          | panic p => simp only [h2] at h; cases h
          | timeout => simp only [h2] at h; cases h
        | panic p => simp only [h1] at h; cases h
        | timeout => simp only [h1] at h; cases h

/-- Helper for C7: `substitute` returns any type all of whose variables are
unbound completely unchanged, given fuel at least `tyFuel` of it. -/
theorem substitute_fix_unbound (s : List Ty) :
    ∀ g, (∀ u, (∀ x ∈ tyVars u, s[x]? = some (Ty.var x)) → tyFuel u ≤ g →
        substitute s g u = Res.ok u) ∧
      (∀ us, (∀ x ∈ tyVarsList us, s[x]? = some (Ty.var x)) → tyFuelList us ≤ g →
        substituteList s g us = Res.ok us) := by
  intro g
  induction g with
  | zero =>
    constructor
    · intro u _ hf; exact absurd hf (by have := tyFuel_pos u; omega)
    · intro us _ hf; exact absurd hf (by have := tyFuelList_pos us; omega)
  | succ n ih =>
    obtain ⟨ih1, ih2⟩ := ih
    constructor
    · intro u hub hf
      cases u with
      | var x =>
        have hx := hub x (by rw [tyVars]; exact List.mem_singleton.mpr rfl)
        simp [substitute, hx]
      | con name args =>
        have hl : substituteList s n args = Res.ok args := by
          apply ih2
          · intro x hx; exact hub x (by rw [tyVars]; exact hx)
          · rw [tyFuel] at hf; omega
        simp [substitute, hl]
    · intro us hub hf
      cases us with
      | nil => rw [substituteList]
      | cons t ts =>
        have hf1 : tyFuel t ≤ n := by rw [tyFuelList] at hf; omega
        have hf2 : tyFuelList ts ≤ n := by rw [tyFuelList] at hf; omega
        have h1 : substitute s n t = Res.ok t :=
          ih1 t (fun x hx => hub x
            (by rw [tyVarsList]; exact List.mem_append.mpr (Or.inl hx))) hf1
        have h2 : substituteList s n ts = Res.ok ts :=
          ih2 ts (fun x hx => hub x
            (by rw [tyVarsList]; exact List.mem_append.mpr (Or.inr hx))) hf2
        simp [substituteList, h1, h2]

/-- C7: `substitute` is idempotent.  Whenever `substitute` returns a value
`u` (in particular after a successful `solve_constraints`, whose bindings
make every chase terminate), applying `substitute` to `u` returns `u`
itself unchanged, for any fuel covering `u`'s depth. -/
theorem c7_substitute_idempotent (s : List Ty) (fuel : Nat) (t u : Ty)
    (h : substitute s fuel t = Res.ok u) (g : Nat) (hg : tyFuel u ≤ g) :
    substitute s g u = Res.ok u :=
  (substitute_fix_unbound s g).1 u ((substitute_ok_unbound s fuel).1 t u h) hg

/-- Witness for C7: over the store `[Int, Var 1]`, substituting `Var 0`
yields `Int`, and substituting the result again yields it unchanged. -/
theorem c7_substitute_idempotent_witness :
    substitute [Ty.con "Int" [], Ty.var 1] 3 (Ty.var 0) =
      Res.ok (Ty.con "Int" []) ∧
    tyFuel (Ty.con "Int" []) ≤ 2 ∧
    substitute [Ty.con "Int" [], Ty.var 1] 2 (Ty.con "Int" []) =
      Res.ok (Ty.con "Int" []) :=
  ⟨by decide, by decide,
   c7_substitute_idempotent [Ty.con "Int" [], Ty.var 1] 3 (Ty.var 0)
     (Ty.con "Int" []) (by decide) 2 (by decide)⟩

/-- Weakening a boolean predicate pointwise weakens `List.all`. -/
theorem all_weaken {α : Type} {p q : α → Bool} (h : ∀ x, p x = true → q x = true) :
    ∀ l : List α, l.all p = true → l.all q = true := by
  intro l hl
  rw [List.all_eq_true] at hl ⊢
  exact fun x hx => h x (hl x hx)

/-- `tyBelow` is monotone in the bound. -/
theorem tyBelow_mono {n m : Nat} (h : n ≤ m) {t : Ty} (ht : tyBelow n t = true) :
    tyBelow m t = true := by
  rw [tyBelow, List.all_eq_true] at ht ⊢
  intro x hx
  have hxn := ht x hx
  simp only [decide_eq_true_eq] at hxn ⊢
  omega

/-- `scopeBelow` is monotone in the bound. -/
theorem scopeBelow_mono {n m : Nat} (h : n ≤ m) {sc : Scope}
    (hs : scopeBelow n sc = true) : scopeBelow m sc = true := by
  rw [scopeBelow, List.all_eq_true] at hs ⊢
  exact fun p hp => tyBelow_mono h (hs p hp)

/-- `constraintBelow` is monotone in the bound. -/
theorem constraintBelow_mono {n m : Nat} (h : n ≤ m) {c : Constraint}
    (hc : constraintBelow n c = true) : constraintBelow m c = true := by
  cases c with
  | eq t1 t2 =>
    rw [constraintBelow, Bool.and_eq_true] at hc ⊢
    exact ⟨tyBelow_mono h hc.1, tyBelow_mono h hc.2⟩

/-- `tyBelow` on a variable is the strict bound on its id. -/
theorem tyBelow_var {n x : Nat} : tyBelow n (Ty.var x) = true ↔ x < n := by
  simp [tyBelow, tyVars]

/-- `tyBelow` on a constructor is `all` over the argument variables. -/
theorem tyBelow_con {n : Nat} {name : String} {args : List Ty} :
    tyBelow n (Ty.con name args) = (tyVarsList args).all (· < n) := by
  rw [tyBelow, tyVars]

/-- `tyBelow` on a binary constructor splits into the two arguments. -/
theorem tyBelow_con2 {n : Nat} {name : String} {a b : Ty} :
    tyBelow n (Ty.con name [a, b]) = (tyBelow n a && tyBelow n b) := by
  simp [tyBelow, tyVars, tyVarsList, List.all_append]

/-- `List.all` survives `tail`. -/
theorem all_tail {α : Type} {p : α → Bool} {l : List α} (h : l.all p = true) :
    l.tail.all p = true := by
  cases l with
  | nil => simp
  | cons a as =>
    rw [List.all_cons, Bool.and_eq_true] at h
    simpa using h.2

/-- A type found in a scope whose entries are below `n` is below `n`. -/
theorem scopeGet_below {n : Nat} : ∀ (sc : Scope) (v : String) (t : Ty),
    scopeGet sc v = some t → scopeBelow n sc = true → tyBelow n t = true := by
  intro sc
  induction sc with
  | nil => intro v t h _; rw [scopeGet] at h; cases h
  | cons p rest ih =>
    intro v t h hb
    obtain ⟨k, w⟩ := p
    rw [scopeGet] at h
    rw [scopeBelow, List.all_cons, Bool.and_eq_true] at hb
    by_cases hk : k = v
    · rw [if_pos hk] at h
      cases h
      exact hb.1
    · rw [if_neg hk] at h
      exact ih v t h (by rw [scopeBelow]; exact hb.2)

/-- A type found by the innermost-first lookup over scopes all below `n`
is below `n`. -/
theorem lookupScopes_below {n : Nat} : ∀ (scopes : List Scope) (v : String) (t : Ty),
    getVar.lookupScopes scopes v = some t → scopes.all (scopeBelow n) = true →
    tyBelow n t = true := by
  intro scopes
  induction scopes with
  | nil => intro v t h _; rw [getVar.lookupScopes] at h; cases h
  | cons sc rest ih =>
    intro v t h hb
    rw [getVar.lookupScopes] at h
    rw [List.all_cons, Bool.and_eq_true] at hb
    cases hg : scopeGet sc v with
    | some ty =>
      simp only [hg] at h
      cases h
      exact scopeGet_below sc v t hg hb.1
    | none =>
      simp only [hg] at h
      exact ih v t h hb.2

/-- `scopeInsert` preserves a scope-wide bound when the inserted type obeys it. -/
theorem scopeInsert_below {n : Nat} : ∀ (sc : Scope) (v : String) (t : Ty),
    scopeBelow n sc = true → tyBelow n t = true →
    scopeBelow n (scopeInsert sc v t) = true := by
  intro sc
  induction sc with
  | nil => intro v t _ ht; simp [scopeInsert, scopeBelow, ht]
  | cons p rest ih =>
    intro v t hs ht
    obtain ⟨k, w⟩ := p
    rw [scopeBelow, List.all_cons, Bool.and_eq_true] at hs
    rw [scopeInsert]
    by_cases hk : k = v
    · rw [if_pos hk]
      rw [scopeBelow, List.all_cons, Bool.and_eq_true]
      exact ⟨ht, hs.2⟩
    · rw [if_neg hk]
      rw [scopeBelow, List.all_cons, Bool.and_eq_true]
      exact ⟨hs.1, ih v t (by rw [scopeBelow]; exact hs.2) ht⟩

/-- Appending a fresh self-variable keeps every store entry below the grown
store's size. -/
theorem subst_push_all {s : List Ty} (hs : s.all (tyBelow s.length) = true) :
    (s ++ [Ty.var s.length]).all (tyBelow (s ++ [Ty.var s.length]).length) = true := by
  rw [List.all_append, Bool.and_eq_true]
  constructor
  · exact all_weaken (fun t ht => tyBelow_mono (by simp) ht) s hs
  · simp [tyBelow, tyVars]

/-- The unifier preserves the allocation invariant: starting from a store
whose entries are below its size and two types below that size, a
successful `unify` returns a store of the same size whose entries are
again below it (binding only overwrites a slot with a type already below
the size; the size itself never changes). -/
theorem unify_wf :
    ∀ fuel,
      (∀ s t1 t2 s', unify fuel s t1 t2 = Res.ok s' →
        s.all (tyBelow s.length) = true → tyBelow s.length t1 = true →
        tyBelow s.length t2 = true →
        s'.length = s.length ∧ s'.all (tyBelow s'.length) = true) ∧
      (∀ s x y s', unifyVar fuel s x y = Res.ok s' →
        s.all (tyBelow s.length) = true → tyBelow s.length y = true →
        s'.length = s.length ∧ s'.all (tyBelow s'.length) = true) ∧
      (∀ s ts1 ts2 s', unifyList fuel s ts1 ts2 = Res.ok s' →
        s.all (tyBelow s.length) = true →
        (tyVarsList ts1).all (· < s.length) = true →
        (tyVarsList ts2).all (· < s.length) = true →
        s'.length = s.length ∧ s'.all (tyBelow s'.length) = true) := by
  intro fuel
  induction fuel with
  | zero =>
    refine ⟨?_, ?_, ?_⟩
    · intro s t1 t2 s' h; rw [unify] at h; cases h
    · intro s x y s' h; rw [unifyVar] at h; cases h
    · intro s ts1 ts2 s' h; rw [unifyList] at h; cases h
  | succ n ih =>
    obtain ⟨ihU, ihV, ihL⟩ := ih
    refine ⟨?_, ?_, ?_⟩
    · intro s t1 t2 s' h hs h1 h2
      cases t1 with
      | var x =>
        cases t2 with
        | var y =>
          rw [unify] at h
          by_cases hxy : x = y
          · rw [if_pos hxy] at h; cases h; exact ⟨rfl, hs⟩
          · rw [if_neg hxy] at h
            exact ihV s x (Ty.var y) s' h hs h2
        | con n2 a2 =>
          rw [unify] at h
          exact ihV s x (Ty.con n2 a2) s' h hs h2
      | con n1 a1 =>
        cases t2 with
        | var y =>
          rw [unify] at h
          exact ihV s y (Ty.con n1 a1) s' h hs h1
        | con n2 a2 =>
          rw [unify] at h
          by_cases hn : n1 = n2
          · rw [if_pos hn] at h
            by_cases hlen : a1.length = a2.length
            · rw [if_pos hlen] at h
              rw [tyBelow_con] at h1 h2
              exact ihL s a1 a2 s' h hs h1 h2
            · rw [if_neg hlen] at h; cases h
          · rw [if_neg hn] at h; cases h
    · intro s x y s' h hs hy
      rw [unifyVar] at h
      cases hg : s[x]? with
      | none => simp only [hg] at h; cases h
      | some m =>
        simp only [hg] at h
        have hmb : tyBelow s.length m = true := by
          rw [List.all_eq_true] at hs
          exact hs m (List.getElem?_mem hg)
        by_cases hself : m = Ty.var x
        · rw [if_pos hself] at h
          cases ho : occursIn s n x y with
          | ok b =>
            cases b with
            | true => simp only [ho] at h; cases h
            | false =>
              simp only [ho] at h
              cases h
              refine ⟨List.length_set s x y, ?_⟩
              rw [List.all_eq_true]
              intro t ht
              rw [List.length_set]
              rcases List.mem_or_eq_of_mem_set ht with hmem | heq
              · rw [List.all_eq_true] at hs
                exact hs t hmem
              · rw [heq]; exact hy
          | panic p => simp only [ho] at h; cases h
          | timeout => simp only [ho] at h; cases h
        · rw [if_neg hself] at h
          exact ihU s m y s' h hs hmb hy
    · intro s ts1 ts2 s' h hs h1 h2
      cases ts1 with
      | nil => rw [unifyList] at h; cases h; exact ⟨rfl, hs⟩
      | cons t1 ts1' =>
        cases ts2 with
        | nil => rw [unifyList] at h; cases h; exact ⟨rfl, hs⟩
        | cons t2 ts2' =>
          rw [unifyList] at h
          cases hu : unify n s t1 t2 with
          | ok s1 =>
            simp only [hu] at h
            rw [tyVarsList, List.all_append, Bool.and_eq_true] at h1 h2
            obtain ⟨e1, a1⟩ := ihU s t1 t2 s1 hu hs (by rw [tyBelow]; exact h1.1)
              (by rw [tyBelow]; exact h2.1)
            obtain ⟨e2, a2⟩ := ihL s1 ts1' ts2' s' h a1
              (by rw [e1]; exact h1.2) (by rw [e1]; exact h2.2)
            exact ⟨by rw [e2, e1], a2⟩
          | panic p => simp only [hu] at h; cases h
          | timeout => simp only [hu] at h; cases h

/-- Unfolding of the engine invariant into its three components. -/
theorem engineWF_iff {e : Engine} : engineWF e = true ↔
    (e.subst.all (tyBelow e.subst.length) = true ∧
     e.constraints.all (constraintBelow e.subst.length) = true ∧
     e.env.all (scopeBelow e.subst.length) = true) := by
  rw [engineWF, Bool.and_eq_true, Bool.and_eq_true]

/-- `new_tyvar` preserves the invariant and returns a variable in bounds. -/
theorem newTyvar_wf (e : Engine) (he : engineWF e = true) :
    engineWF (newTyvar e).2 = true ∧
    tyBelow (newTyvar e).2.subst.length (newTyvar e).1 = true := by
  have he' := engineWF_iff.mp he
  have hlen : (e.subst ++ [Ty.var e.subst.length]).length = e.subst.length + 1 := by
    simp
  constructor
  · rw [engineWF_iff]
    refine ⟨subst_push_all he'.1, ?_, ?_⟩
    · show e.constraints.all
        (constraintBelow (e.subst ++ [Ty.var e.subst.length]).length) = true
      rw [hlen]
      exact all_weaken (fun c hc => constraintBelow_mono (by omega) hc) _ he'.2.1
    · show e.env.all (scopeBelow (e.subst ++ [Ty.var e.subst.length]).length) = true
      rw [hlen]
      exact all_weaken (fun sc hsc => scopeBelow_mono (by omega) hsc) _ he'.2.2
  · show tyBelow (e.subst ++ [Ty.var e.subst.length]).length
      (Ty.var e.subst.length) = true
    rw [hlen]
    exact tyBelow_var.mpr (by omega)

/-- The loop of `solve_constraints` preserves the store invariant. -/
theorem solveConstraintsList_wf (fuel : Nat) :
    ∀ (cs : List Constraint) (s s' : List Ty),
      solveConstraintsList fuel s cs = Res.ok s' →
      s.all (tyBelow s.length) = true →
      cs.all (constraintBelow s.length) = true →
      s'.length = s.length ∧ s'.all (tyBelow s'.length) = true := by
  intro cs
  induction cs with
  | nil =>
    intro s s' h hs _
    rw [solveConstraintsList] at h
    cases h
    exact ⟨rfl, hs⟩
  | cons c rest ih =>
    intro s s' h hs hc
    cases c with
    | eq t1 t2 =>
      rw [solveConstraintsList] at h
      cases hu : unify fuel s t1 t2 with
      | ok s1 =>
        simp only [hu] at h
        rw [List.all_cons, Bool.and_eq_true] at hc
        have hc1 := hc.1
        rw [constraintBelow, Bool.and_eq_true] at hc1
        obtain ⟨e1, a1⟩ := (unify_wf fuel).1 s t1 t2 s1 hu hs hc1.1 hc1.2
        obtain ⟨e2, a2⟩ := ih s1 s' h a1 (by rw [e1]; exact hc.2)
        exact ⟨by rw [e2, e1], a2⟩
      | panic p => simp only [hu] at h; cases h
      | timeout => simp only [hu] at h; cases h

/-- `solve_constraints` preserves the engine invariant. -/
theorem solveConstraints_wf (fuel : Nat) (e e' : Engine)
    (h : solveConstraints fuel e = Res.ok e') (he : engineWF e = true) :
    engineWF e' = true := by
  rw [solveConstraints] at h
  cases hl : solveConstraintsList fuel e.subst e.constraints with
  | ok s' =>
    simp only [hl] at h
    cases h
    have he' := engineWF_iff.mp he
    obtain ⟨e1, a1⟩ := solveConstraintsList_wf fuel e.constraints e.subst s' hl
      he'.1 he'.2.1
    rw [engineWF_iff]
    refine ⟨a1, by simp, ?_⟩
    show e.env.all (scopeBelow s'.length) = true
    rw [e1]
    exact he'.2.2
  | panic p => simp only [hl] at h; cases h
  | timeout => simp only [hl] at h; cases h

/-- `substitute` only returns types whose variables are in bounds: it stops
chasing only at a variable whose slot it has just read successfully. -/
theorem substitute_below (s : List Ty) :
    ∀ fuel, (∀ t u, substitute s fuel t = Res.ok u → tyBelow s.length u = true) ∧
      (∀ ts us, substituteList s fuel ts = Res.ok us →
        (tyVarsList us).all (· < s.length) = true) := by
  intro fuel
  induction fuel with
  | zero =>
    constructor
    · intro t u h; rw [substitute] at h; cases h
    · intro ts us h; rw [substituteList] at h; cases h
  | succ n ih =>
    obtain ⟨ih1, ih2⟩ := ih
    constructor
    · intro t u h
      cases t with
      | var v =>
        rw [substitute] at h
        cases hg : s[v]? with
        | none => simp only [hg] at h; cases h
        | some m =>
          simp only [hg] at h
          by_cases hm : m = Ty.var v
          · rw [if_pos hm] at h
            cases h
            have hv : v < s.length := by
              rw [List.getElem?_eq_some] at hg
              exact hg.1
            exact tyBelow_var.mpr hv
          · rw [if_neg hm] at h
            exact ih1 m u h
      | con name args =>
        rw [substitute] at h
        cases hl : substituteList s n args with
        | ok args' =>
          simp only [hl] at h
          cases h
          rw [tyBelow_con]
          exact ih2 args args' hl
        | panic p => simp only [hl] at h; cases h
        | timeout => simp only [hl] at h; cases h
    · intro ts us h
      cases ts with
      | nil =>
        rw [substituteList] at h
        cases h
        simp [tyVarsList]
      | cons t ts' =>
        rw [substituteList] at h
        cases h1 : substitute s n t with
        | ok u1 =>
          simp only [h1] at h
          cases h2 : substituteList s n ts' with
          | ok us' =>
            simp only [h2] at h
            cases h
            rw [tyVarsList, List.all_append, Bool.and_eq_true]
            refine ⟨?_, ih2 ts' us' h2⟩
            have := ih1 t u1 h1
            rwa [tyBelow] at this
          | panic p => simp only [h2] at h; cases h
          | timeout => simp only [h2] at h; cases h
        | panic p => simp only [h1] at h; cases h
        | timeout => simp only [h1] at h; cases h

/-- `infer` preserves the engine invariant: the store only grows, every
state reached is well-formed, and the returned type's variables are in
bounds of the final store. -/
theorem infer_wf (x : Expr) : ∀ (e : Engine) (t : Ty) (e' : Engine),
    infer e x = InferRes.ok t e' → engineWF e = true →
    e.subst.length ≤ e'.subst.length ∧ engineWF e' = true ∧
      tyBelow e'.subst.length t = true := by
  induction x with
  | var v =>
    intro e t e' h he
    rw [infer_var] at h
    cases hg : getVar e v with
    | none => simp only [hg] at h; cases h
    | some ty =>
      simp only [hg] at h
      cases h
      refine ⟨le_refl _, he, ?_⟩
      rw [getVar] at hg
      exact lookupScopes_below e.env v t hg (engineWF_iff.mp he).2.2
  | app fn arg ihf iha =>
    intro e t e' h he
    rw [infer_app] at h
    cases hf : infer e fn with
    | panic p e1 => simp only [hf] at h; cases h
    | ok funTy e1 =>
      simp only [hf] at h
      obtain ⟨lf, wf1, bf⟩ := ihf e funTy e1 hf he
      cases ha : infer e1 arg with
      | panic p e2 => simp only [ha] at h; cases h
      | ok argTy e2 =>
        simp only [ha] at h
        obtain ⟨la, wf2, ba⟩ := iha e1 argTy e2 ha wf1
        cases h
        obtain ⟨w2s, w2c, w2e⟩ := engineWF_iff.mp wf2
        have hlen : (e2.subst ++ [Ty.var e2.subst.length]).length =
            e2.subst.length + 1 := by simp
        refine ⟨?_, ?_, ?_⟩
        · show e.subst.length ≤ (e2.subst ++ [Ty.var e2.subst.length]).length
          rw [hlen]; omega
        · rw [engineWF_iff]
          refine ⟨subst_push_all w2s, ?_, ?_⟩
          · show (e2.constraints ++
                [Constraint.eq funTy
                  (Ty.con "Fun" [argTy, Ty.var e2.subst.length])]).all
              (constraintBelow (e2.subst ++ [Ty.var e2.subst.length]).length) = true
            rw [hlen, List.all_append, Bool.and_eq_true]
            constructor
            · exact all_weaken (fun c hc => constraintBelow_mono (by omega) hc) _ w2c
            · rw [List.all_cons]
              simp only [List.all_nil, Bool.and_true]
              rw [constraintBelow, Bool.and_eq_true]
              refine ⟨tyBelow_mono (by omega) bf, ?_⟩
              rw [tyBelow_con2, Bool.and_eq_true]
              exact ⟨tyBelow_mono (by omega) ba, tyBelow_var.mpr (by omega)⟩
          · show e2.env.all
              (scopeBelow (e2.subst ++ [Ty.var e2.subst.length]).length) = true
            rw [hlen]
            exact all_weaken (fun sc hsc => scopeBelow_mono (by omega) hsc) _ w2e
        · show tyBelow (e2.subst ++ [Ty.var e2.subst.length]).length
            (Ty.var e2.subst.length) = true
          rw [hlen]
          exact tyBelow_var.mpr (by omega)
  | abs a body ih =>
    intro e t e' h he
    rw [infer_abs] at h
    obtain ⟨hes, hec, hee⟩ := engineWF_iff.mp he
    have hlen : (e.subst ++ [Ty.var e.subst.length]).length = e.subst.length + 1 := by
      simp
    have hwf2 : engineWF (Engine.mk (e.subst ++ [Ty.var e.subst.length]) e.constraints
        (scopeInsert [] a (Ty.var e.subst.length) :: e.env)) = true := by
      rw [engineWF_iff]
      refine ⟨subst_push_all hes, ?_, ?_⟩
      · show e.constraints.all
          (constraintBelow (e.subst ++ [Ty.var e.subst.length]).length) = true
        rw [hlen]
        exact all_weaken (fun c hc => constraintBelow_mono (by omega) hc) _ hec
      · show (scopeInsert [] a (Ty.var e.subst.length) :: e.env).all
          (scopeBelow (e.subst ++ [Ty.var e.subst.length]).length) = true
        rw [hlen, List.all_cons, Bool.and_eq_true]
        constructor
        · exact scopeInsert_below [] a (Ty.var e.subst.length) rfl
            (tyBelow_var.mpr (by omega))
        · exact all_weaken (fun sc hsc => scopeBelow_mono (by omega) hsc) _ hee
    cases hb : infer (Engine.mk (e.subst ++ [Ty.var e.subst.length]) e.constraints
        (scopeInsert [] a (Ty.var e.subst.length) :: e.env)) body with
    | panic p e3 => simp only [hb] at h; cases h
    | ok bodyTy e3 =>
      simp only [hb] at h
      obtain ⟨l3, wf3, b3⟩ := ih _ bodyTy e3 hb hwf2
      cases h
      obtain ⟨w3s, w3c, w3e⟩ := engineWF_iff.mp wf3
      have l3' : e.subst.length + 1 ≤ e3.subst.length := by
        simpa using l3
      refine ⟨?_, ?_, ?_⟩
      · show e.subst.length ≤ e3.subst.length
        omega
      · rw [engineWF_iff]
        refine ⟨w3s, w3c, ?_⟩
        show e3.env.tail.all (scopeBelow e3.subst.length) = true
        exact all_tail w3e
      · show tyBelow e3.subst.length
          (Ty.con "Fun" [Ty.var e.subst.length, bodyTy]) = true
        rw [tyBelow_con2, Bool.and_eq_true]
        exact ⟨tyBelow_var.mpr (by omega), b3⟩

/-- C9: every engine operation preserves the allocation invariant - every
`Var(id)` in the substitution store, constraint list, environment, or any
returned type has `id` strictly below the store's current size.
`new_tyvar` grows the store and returns the new in-bounds variable;
`infer`, on a normal return from a well-formed engine, yields a
well-formed engine and an in-bounds type; `solve_constraints` preserves
well-formedness (the store's size never changes while solving);
`substitute` only returns types whose variables index existing slots. -/
theorem c9_allocation_invariant (e : Engine) (he : engineWF e = true) :
    (engineWF (newTyvar e).2 = true ∧
      tyBelow (newTyvar e).2.subst.length (newTyvar e).1 = true) ∧
    (∀ x t e', infer e x = InferRes.ok t e' →
      engineWF e' = true ∧ tyBelow e'.subst.length t = true) ∧
    (∀ fuel e', solveConstraints fuel e = Res.ok e' → engineWF e' = true) ∧
    (∀ fuel t u, substitute e.subst fuel t = Res.ok u →
      tyBelow e.subst.length u = true) := by
  refine ⟨newTyvar_wf e he, ?_, ?_, ?_⟩
  · intro x t e' h
    obtain ⟨_, wf, bt⟩ := infer_wf x e t e' h he
    exact ⟨wf, bt⟩
  · intro fuel e' h
    exact solveConstraints_wf fuel e e' h he
  · intro fuel t u h
    exact (substitute_below e.subst fuel).1 t u h

/-- Witness for C9 at the concrete base engine `{"one": Int}`. -/
theorem c9_allocation_invariant_witness :
    engineWF (Engine.new [("one", Ty.con "Int" [])]) = true ∧
      engineWF (newTyvar (Engine.new [("one", Ty.con "Int" [])])).2 = true :=
  ⟨by decide,
   (c9_allocation_invariant (Engine.new [("one", Ty.con "Int" [])]) (by decide)).1.1⟩
